import Mathlib

/-!
Verification of the inline-metadata / notebook-document model of the `juv`
command-line tool against its natural-language specification.

The Python sources are shallowly embedded: strings become `List Char`,
line-oriented regex scanning becomes an explicit scanner over lists of lines,
`tomlkit` documents become ordered association lists, and the external
collaborators (the `tomlkit` parser/serializer, the `whenever` datetime
library, `difflib.SequenceMatcher`, the external editor process and
`jupytext`) are either modelled from the specification or passed in as
explicit parameters.
-/

set_option maxHeartbeats 1000000

namespace Juv

/-- A line of text: the characters of one line, without its terminating
newline character. -/
abbrev Line := List Char

/-- Split a character sequence at every newline character.  The result is
always non-empty; `"" ↦ [[]]`, and a trailing newline yields a final empty
line, mirroring how Python's `re` module views a string as a sequence of
`^...$` lines. -/
def linesOf : List Char → List Line
  | [] => [[]]
  | c :: rest =>
    let r := linesOf rest
    if c = '\n' then [] :: r
    else (c :: r.headI) :: r.tail

/-- Join lines back with newline separators (inverse of `linesOf`). -/
def intercalateNl (ls : List Line) : List Char :=
  match ls with
  | [] => []
  | [l] => l
  | l :: ls => l ++ '\n' :: intercalateNl ls

/-- One line of the content group of the metadata-block regex
`^#(| .*)$`: either exactly `#`, or `#` followed by a space and anything. -/
def commentLine (l : Line) : Bool :=
  l == ['#'] || l.take 2 == ['#', ' ']

/-- The end sentinel line `# ///` of a metadata block. -/
def termLine : Line := "# ///".data

/-- The fixed prefix `# /// ` of a start sentinel line. -/
def headerPrefix : Line := "# /// ".data

/-- Characters allowed in the type tag of a start sentinel
(`[a-zA-Z0-9-]` in the regex). -/
def tyChar (c : Char) : Bool := c.isAlphanum || c == '-'

/-- Recognize a start sentinel line `# /// <type>` and return its type tag
(the regex line `^# /// (?P<type>[a-zA-Z0-9-]+)$`). -/
def headerType (l : Line) : Option String :=
  if headerPrefix.isPrefixOf l then
    let ty := l.drop 6
    if ty ≠ [] ∧ ty.all tyChar then some (String.mk ty) else none
  else none

/-- Length of the maximal run of content lines at the head of the list. -/
def commentRunLen : List Line → Nat
  | [] => 0
  | l :: ls => if commentLine l then commentRunLen ls + 1 else 0

/-- Index of the end sentinel chosen by the (greedy, backtracking) regex for
a block whose start sentinel directly precedes `rest`: the largest `m ≥ 1`
inside the maximal content run with `rest[m] = # ///`; the `m` lines before
it form the (non-empty) content group.  `none` means the block is
unterminated and the regex does not match there. -/
def termIndex (rest : List Line) : Option Nat :=
  ((List.range (commentRunLen rest)).filter
    (fun m => decide (1 ≤ m) && rest.getD m [] == termLine)).getLast?

/-- All metadata blocks of a document, in the order and with the extents that
`re.finditer` with the module-level `REGEX` of `_pep723.py` produces:
scanning line by line, a start sentinel followed by a greedily-terminated
content group yields a block `(type tag, content lines)`; scanning resumes
after the end sentinel. -/
def findBlocksAux : Nat → List Line → List (String × List Line)
  | 0, _ => []
  | _, [] => []
  | fuel + 1, l :: rest =>
    match headerType l, termIndex rest with
    | some ty, some m => (ty, rest.take m) :: findBlocksAux fuel (rest.drop (m + 1))
    | _, _ => findBlocksAux fuel rest

/-- The scan started with enough fuel to consume every line (each step
consumes at least one line, so the fuel is never exhausted). -/
def findBlocksLines (ls : List Line) : List (String × List Line) :=
  findBlocksAux ls.length ls

/-- Strip the comment prefix from one content line:
`line[2:] if line.startswith("# ") else line[1:]`. -/
def decodeLine (l : Line) : Line :=
  if ['#', ' '].isPrefixOf l then l.drop 2 else l.drop 1

/-- Decode a content group: strip the comment prefix of each line, keeping
the terminating newline of every content line (the source iterates
`splitlines(keepends=True)` over the regex `content` group, in which each
line carries its newline). -/
def decodeContentLines (ls : List Line) : List Char :=
  (ls.map (fun l => decodeLine l ++ ['\n'])).flatten

/-- Whether an `Except` result is an error (Python: the call raised). -/
def isErr {ε α : Type} : Except ε α → Bool
  | .error _ => true
  | .ok _ => false

/-- The script-tagged blocks of a document (the `filter` in
`parse_inline_script_metadata`). -/
def scriptBlocks (script : List Char) : List (String × List Line) :=
  (findBlocksLines (linesOf script)).filter (fun b => b.1 == "script")

/-- Embedding of `_pep723.parse_inline_script_metadata`: find all regex
matches, keep those typed `script`; more than one is a fatal error, exactly
one yields its decoded content, none yields `None`. -/
def parse_inline_script_metadata (script : List Char) :
    Except String (Option (List Char)) :=
  match scriptBlocks script with
  | [] => .ok none
  | [b] => .ok (some (decodeContentLines b.2))
  | _ :: _ :: _ => .error "Multiple script blocks found"

/-- Python `str.splitlines()` for text whose only line separator is `\n`:
no entry for a trailing newline, and `"" ↦ []`. -/
def pySplitlines (s : List Char) : List Line :=
  if s = [] then []
  else
    let ls := linesOf s
    if ls.getLast? = some [] then ls.dropLast else ls

/-- Encode one TOML line as a comment line:
`f"# {line}" if line else "#"` (from `update_inline_metadata`). -/
def encodeMetaLine (l : Line) : Line := if l = [] then ['#'] else '#' :: ' ' :: l

/-- The start sentinel written by the stamper. -/
def headerScriptLine : Line := "# /// script".data

/-- Embedding of the block re-encoder of `_stamp.update_inline_metadata`
(lines 137-143): sentinel lines around the `# `-prefixed TOML lines, joined
with newlines. -/
def mkMetaComment (toml : List Char) : List Char :=
  intercalateNl
    (headerScriptLine :: ((pySplitlines toml).map encodeMetaLine ++ [termLine]))

/-- Python's exotic line separators: `str.splitlines` also splits on these;
the embedding `pySplitlines` only splits on `\n`, so theorems about it are
restricted to text avoiding them. -/
def pyLineSeps : List Char :=
  ['\r', '\x0b', '\x0c', '\x1c', '\x1d', '\x1e', '\x85', '\u2028', '\u2029']

/-- A notebook cell as the JSON/jupytext dict exposes it to `to_notebook`:
a `cell_type` tag and a `source` given as a list of strings whose
concatenation (`"".join(cell["source"])`) is the cell text. -/
structure NbCell where
  cell_type : String
  source : List Line

/-- Embedding of the metadata lookup in `_run.to_notebook` (lines 88-94):
`next((parse_inline_script_metadata("".join(cell["source"])) for cell in
filter(code, cells)), None)` — the first element of the generator is the
parse result of the first code cell; the `None` default applies only when
there is no code cell at all. -/
def to_notebook_meta (cells : List NbCell) : Except String (Option (List Char)) :=
  match cells.filter (fun c => c.cell_type == "code") with
  | [] => .ok none
  | c :: _ => parse_inline_script_metadata c.source.flatten

/-- A TOML value as far as the stamper manipulates it: a leaf (string or any
other scalar, kept abstract as its serialized text) or a table. -/
inductive Toml where
  | str : List Char → Toml
  | table : List (String × Toml) → Toml

/-- A parsed TOML document: an ordered key/value map (`tomlkit` preserves
insertion order; updating an existing key keeps its position, adding a new
key appends). -/
abbrev TomlDoc := List (String × Toml)

/-- Lookup `d.get(k)`: the value at the first binding of `k`. -/
def tget (d : TomlDoc) (k : String) : Option Toml :=
  match d with
  | [] => none
  | (k', v) :: rest => if k' == k then some v else tget rest k

/-- Assignment `d[k] = v`: replace the value at `k` in place, or append a fresh
binding. -/
def tset (d : TomlDoc) (k : String) (v : Toml) : TomlDoc :=
  match d with
  | [] => [(k, v)]
  | (k', v') :: rest => if k' == k then (k, v) :: rest else (k', v') :: tset rest k v

/-- Removal `d.pop(k, None)` (ignoring the returned value): remove the binding of
`k` if present. -/
def tpop (d : TomlDoc) (k : String) : TomlDoc :=
  match d with
  | [] => []
  | (k', v') :: rest => if k' == k then rest else (k', v') :: tpop rest k

/-- Navigation step `meta.get(key)` followed by `meta[key] = table()` when absent: an absent
key denotes a fresh empty table, a table is used as is, and a non-table
value would make the Python code fail on attribute access (`none` here). -/
def asTable : Option Toml → Option TomlDoc
  | none => some []
  | some (.table t) => some t
  | some (.str _) => none

/-- The stamp actions of `_stamp.py` (dataclasses `DeleteAction`,
`CreateAction`, `UpdateAction`). -/
inductive Action where
  | delete : Option Toml → Action
  | create : List Char → Action
  | update : Toml → List Char → Action

/-- Embedding of the TOML-document manipulation of
`_stamp.update_inline_metadata` (lines 111-134): navigate/create
`tool.uv`, then either pop `exclude-newer` (removing `tool.uv` and `tool`
when they end up empty) or write the serialized timestamp `cur`, recording
the corresponding action. -/
def update_exclude_newer (meta : TomlDoc) (dt : Option (List Char)) :
    Option (TomlDoc × Action) :=
  match asTable (tget meta "tool") with
  | none => none
  | some tool0 =>
    match asTable (tget tool0 "uv") with
    | none => none
    | some uv0 =>
      let tool1 := tset tool0 "uv" (.table uv0)
      let meta1 := tset meta "tool" (.table tool1)
      match dt with
      | none =>
        let act := Action.delete (tget uv0 "exclude-newer")
        let uv2 := tpop uv0 "exclude-newer"
        if uv2.isEmpty then
          let tool2 := tpop tool1 "uv"
          if tool2.isEmpty then some (tpop meta1 "tool", act)
          else some (tset meta1 "tool" (.table tool2), act)
        else some (tset meta1 "tool" (.table (tset tool1 "uv" (.table uv2))), act)
      | some cur =>
        let uv2 := tset uv0 "exclude-newer" (.str cur)
        let act := match tget uv0 "exclude-newer" with
          | none => Action.create cur
          | some prev => Action.update prev cur
        some (tset meta1 "tool" (.table (tset tool1 "uv" (.table uv2))), act)

/-- A proleptic Gregorian calendar date. -/
structure GDate where
  year : Nat
  month : Nat
  day : Nat
deriving DecidableEq

/-- Gregorian leap-year rule. -/
def isLeapYear (y : Nat) : Bool :=
  y % 4 == 0 && (y % 100 != 0 || y % 400 == 0)

/-- Number of days of a month. -/
def daysInMonth (y m : Nat) : Nat :=
  if m = 2 then (if isLeapYear y then 29 else 28)
  else if m = 4 ∨ m = 6 ∨ m = 9 ∨ m = 11 then 30 else 31

/-- The day after a date (the `Date.add(days=1)` step of
`parse_offset_datetime`). -/
def nextDay (d : GDate) : GDate :=
  if d.day < daysInMonth d.year d.month then ⟨d.year, d.month, d.day + 1⟩
  else if d.month < 12 then ⟨d.year, d.month + 1, 1⟩
  else ⟨d.year + 1, 1, 1⟩

/-- Decimal digit value of a character, if any. -/
def digitVal (c : Char) : Option Nat :=
  if c.isDigit then some (c.toNat - 48) else none

/-- Modelled from the spec: `whenever`'s `Date.parse_common_iso` (external
library) — parses exactly a `YYYY-MM-DD` calendar date with in-range month
and day and no time component. -/
def parseDateCommonIso (s : List Char) : Option GDate :=
  match s with
  | [y1, y2, y3, y4, '-', m1, m2, '-', d1, d2] => do
    let a ← digitVal y1
    let b ← digitVal y2
    let c ← digitVal y3
    let d ← digitVal y4
    let e ← digitVal m1
    let f ← digitVal m2
    let g ← digitVal d1
    let h ← digitVal d2
    let y := ((a * 10 + b) * 10 + c) * 10 + d
    let mo := e * 10 + f
    let da := g * 10 + h
    if 1 ≤ y ∧ 1 ≤ mo ∧ mo ≤ 12 ∧ 1 ≤ da ∧ da ≤ daysInMonth y mo then
      some ⟨y, mo, da⟩
    else none
  | _ => none

/-- An offset-aware timestamp: date, time of day, and a fixed UTC offset in
minutes. -/
structure OffsetDT where
  date : GDate
  hour : Nat
  minute : Nat
  second : Nat
  offsetMinutes : Int
deriving DecidableEq

/-- Parse a UTC-offset suffix: `Z` or `±HH:MM`. -/
def parseOffsetPart : List Char → Option Int
  | ['Z'] => some 0
  | [sign, o1, o2, ':', o3, o4] => do
    let a ← digitVal o1
    let b ← digitVal o2
    let c ← digitVal o3
    let d ← digitVal o4
    let total : Int := (a * 10 + b) * 60 + (c * 10 + d)
    if sign = '+' then some total
    else if sign = '-' then some (-total)
    else none
  | _ => none

/-- Parse `HH:MM:SS` followed by an offset suffix. -/
def parseTimeOffset (s : List Char) : Option (Nat × Nat × Nat × Int) :=
  match s with
  | h1 :: h2 :: ':' :: m1 :: m2 :: ':' :: s1 :: s2 :: rest => do
    let a ← digitVal h1
    let b ← digitVal h2
    let c ← digitVal m1
    let d ← digitVal m2
    let e ← digitVal s1
    let f ← digitVal s2
    let off ← parseOffsetPart rest
    let h := a * 10 + b
    let mi := c * 10 + d
    let sec := e * 10 + f
    if h ≤ 23 ∧ mi ≤ 59 ∧ sec ≤ 59 then some (h, mi, sec, off) else none
  | _ => none

/-- Modelled from the spec: `whenever`'s `OffsetDateTime.parse_common_iso`
(external library) — "a timestamp with explicit offset": date, `T`, time,
offset.  It always fails on a plain 10-character calendar date.  Fractional
seconds and reduced-precision forms are outside the scope of the claims. -/
def parse_common_iso_odt (s : List Char) : Option OffsetDT :=
  match parseDateCommonIso (s.take 10), s.drop 10 with
  | some d, 'T' :: rest =>
    (parseTimeOffset rest).map (fun t => ⟨d, t.1, t.2.1, t.2.2.1, t.2.2.2⟩)
  | _, _ => none

/-- Modelled from the spec: `whenever`'s `OffsetDateTime.parse_rfc3339`
(external library) — like the common ISO form but also accepting `t` or a
space as the separator.  It always fails on a plain calendar date. -/
def parse_rfc3339_odt (s : List Char) : Option OffsetDT :=
  match parseDateCommonIso (s.take 10), s.drop 10 with
  | some d, sep :: rest =>
    if sep = 'T' ∨ sep = 't' ∨ sep = ' ' then
      (parseTimeOffset rest).map (fun t => ⟨d, t.1, t.2.1, t.2.2.1, t.2.2.2⟩)
    else none
  | _, _ => none

/-- Embedding of `_stamp.parse_offset_datetime`: try the common-ISO
timestamp parse, then RFC 3339, then a plain calendar date; a date resolves
to midnight at the start of the NEXT day (`.add(days=1)`) in the system's
local fixed offset, which the embedding receives as the explicit
`localOffset` parameter (minutes east of UTC). -/
def parse_offset_datetime (localOffset : Int) (s : List Char) : Option OffsetDT :=
  match parse_common_iso_odt s with
  | some dt => some dt
  | none =>
    match parse_rfc3339_odt s with
    | some dt => some dt
    | none =>
      match parseDateCommonIso s with
      | none => none
      | some d => some ⟨nextDay d, 0, 0, 0, localOffset⟩

/-- Zero-padded decimal rendering. -/
def padNat (w n : Nat) : List Char :=
  let s := (toString n).data
  List.replicate (w - s.length) '0' ++ s

/-- Render a UTC offset as `±HH:MM`. -/
def formatOffset (off : Int) : List Char :=
  (if off < 0 then '-' else '+') ::
    (padNat 2 (off.natAbs / 60) ++ ':' :: padNat 2 (off.natAbs % 60))

/-- Modelled from the spec: `whenever`'s `format_common_iso` for an
offset-aware timestamp — the fixed `YYYY-MM-DDTHH:MM:SS±HH:MM` ISO-8601
form. -/
def format_common_iso (dt : OffsetDT) : List Char :=
  padNat 4 dt.date.year ++ '-' :: padNat 2 dt.date.month
    ++ '-' :: padNat 2 dt.date.day
    ++ 'T' :: padNat 2 dt.hour ++ ':' :: padNat 2 dt.minute
    ++ ':' :: padNat 2 dt.second ++ formatOffset dt.offsetMinutes

/-- A notebook cell as `apply_diff` sees it: a dict whose keys `id`,
`outputs` and `execution_count` may be absent (`Option` models key
presence; `execution_count` may be present and null). -/
structure ECell where
  id : Option String
  source : List String
  outputs : Option (List String)
  execution_count : Option (Option Int)
deriving DecidableEq

/-- Concatenation `"".join(cell["source"])`. -/
def srcJoin (c : ECell) : String := String.join c.source

/-- The `update` closure of `apply_diff`: copy `id`, `outputs` and
`execution_count` onto the new cell, each only when present on the previous
cell. -/
def updateCell (prev new : ECell) : ECell :=
  { new with
    id := if prev.id.isSome then prev.id else new.id,
    outputs := if prev.outputs.isSome then prev.outputs else new.outputs,
    execution_count :=
      if prev.execution_count.isSome then prev.execution_count
      else new.execution_count }

/-- The inner loop of `apply_diff` for one new cell: walk the remaining
previous cells in order, scoring each; stop at the first perfect score
(`break`), returning the scores accumulated so far and the exact match, if
any.  `r` is the similarity ratio (`difflib.SequenceMatcher(...).ratio()`,
external, passed in as a parameter). -/
def scanScores (r : String → String → ℚ) (n : String) :
    List ECell → List (ℚ × ECell) × Option ECell
  | [] => ([], none)
  | p :: ps =>
    let sc := r n (srcJoin p)
    if sc = 1 then ([], some p)
    else
      let rest := scanScores r n ps
      ((sc, p) :: rest.1, rest.2)

/-- Python's `max(scores, key=itemgetter(0))`: the first entry with the
largest score. -/
def maxFirst : List (ℚ × ECell) → Option (ℚ × ECell)
  | [] => none
  | x :: xs => some (xs.foldl (fun a b => if b.1 > a.1 then b else a) x)

/-- One iteration of the outer loop of `apply_diff` (lines 95-112): scan for
an exact match — consuming and transferring it — and afterwards
unconditionally consult the accumulated scores: if the best scorer exceeds
the threshold it is also consumed and transferred onto the same new cell.
Returns the merged new cell, the remaining previous cells, and (as
instrumentation, not present in the source) the list of consumed previous
cells in consumption order. -/
def mergeStep (r : String → String → ℚ) (minSim : ℚ) (prevs : List ECell)
    (n : ECell) : ECell × List ECell × List ECell :=
  let scan := scanScores r (srcJoin n) prevs
  let step1 : ECell × List ECell × List ECell :=
    match scan.2 with
    | some p => (updateCell p n, prevs.erase p, [p])
    | none => (n, prevs, [])
  match maxFirst scan.1 with
  | some sp =>
    if minSim < sp.1 then
      (updateCell sp.2 step1.1, step1.2.1.erase sp.2, step1.2.2 ++ [sp.2])
    else step1
  | none => step1

/-- Embedding of `_edit.apply_diff`: fold `mergeStep` over the new cells
(the source mutates `new_cells` and `prev_cells` in place; here the merged
new cells, the remaining previous cells and the consumed previous cells are
returned). -/
def apply_diff (r : String → String → ℚ) (minSim : ℚ) :
    List ECell → List ECell → List ECell × List ECell × List ECell
  | prevs, [] => ([], prevs, [])
  | prevs, n :: ns =>
    let st := mergeStep r minSim prevs n
    let rest := apply_diff r minSim st.2.1 ns
    (st.1 :: rest.1, rest.2.1, st.2.2 ++ rest.2.2)

/-- The `difflib.SequenceMatcher` ratios on the inputs of the C2 failing
input, as the real library computes them: equal strings score `1.0`, and
`ratio("abcdefghij", "abcdefghiX") = 2*9/20 = 0.9`. -/
def ratioCex : String → String → ℚ := fun a b =>
  if a = b then 1 else if a = "abcdefghij" ∧ b = "abcdefghiX" then mkRat 9 10 else 0

/-- The file-system state `edit` touches: the on-disk notebook file's bytes
and the staged temporary file (`none` = removed/absent). -/
structure EditFS where
  notebook : String
  temp : Option String
deriving DecidableEq

/-- The external editor collaborator, modelled by its observable behavior:
the exit code of the subprocess and the text it leaves in the temporary
file. -/
structure EditorRun where
  returncode : Int
  edited : String

/-- Embedding of `_edit.open_editor`: stage the contents in a temporary
file, run the editor (which rewrites the file), raise `EditorAbortedError`
when it exits non-zero, read the file back otherwise; the `finally` block
unlinks the temporary file on both exit paths. -/
def open_editor (run : EditorRun) (contents : String) (fs : EditFS) :
    Except String String × EditFS :=
  let fs1 : EditFS := { fs with temp := some contents }
  let fs2 : EditFS := { fs1 with temp := some run.edited }
  if run.returncode ≠ 0 then
    (.error ("Editor exited with code " ++ toString run.returncode),
     { fs2 with temp := none })
  else
    (.ok run.edited, { fs2 with temp := none })

/-- Embedding of `_edit.edit`: read the notebook (`readNb`, jupytext —
external), render it to markdown (`render`, `_cat.cat` — external), run the
editor, parse the edited text (`parseMd`, jupytext — external), merge with
`apply_diff` at threshold 0.8, and only then serialize (`writeNb`) and
write the notebook file. -/
def edit (run : EditorRun) (readNb : String → List ECell)
    (render : List ECell → String) (parseMd : String → List ECell)
    (writeNb : List ECell → String) (r : String → String → ℚ) (fs : EditFS) :
    Except String Unit × EditFS :=
  let prevCells := readNb fs.notebook
  match open_editor run (render prevCells) fs with
  | (.error e, fs1) => (.error e, fs1)
  | (.ok text, fs1) =>
    let newCells := parseMd text
    let merged := (apply_diff r (mkRat 4 5) prevCells newCells).1
    (.ok (), { fs1 with notebook := writeNb merged })

/-- Python `str.replace`, scanning left to right and replacing every
non-overlapping occurrence.  Structural on explicit fuel (each step consumes
at least one character when the pattern is non-empty; the wrapper supplies
enough fuel). -/
def pyReplaceAux (pat rep : List Char) : Nat → List Char → List Char
  | 0, s => s
  | fuel + 1, s =>
    if pat.isPrefixOf s ∧ pat ≠ [] then
      rep ++ pyReplaceAux pat rep fuel (s.drop pat.length)
    else
      match s with
      | [] => []
      | c :: rest => c :: pyReplaceAux pat rep fuel rest

/-- Wrapper `s.replace(pat, rep)` for a non-empty pattern. -/
def pyReplace (s pat rep : List Char) : List Char :=
  pyReplaceAux pat rep (s.length + 1) s

/-- Decompose a string at the first occurrence of a pattern. -/
def splitFirstAux (pat : List Char) : Nat → List Char → Option (List Char × List Char)
  | 0, _s => none
  | fuel + 1, s =>
    if pat.isPrefixOf s ∧ pat ≠ [] then some ([], s.drop pat.length)
    else
      match s with
      | [] => none
      | c :: rest => (splitFirstAux pat fuel rest).map (fun pr => (c :: pr.1, pr.2))

/-- The first occurrence of `pat` in `s`: `some (pre, suf)` with
`s = pre ++ pat ++ suf` and no occurrence starting inside `pre`. -/
def splitFirstOcc (s pat : List Char) : Option (List Char × List Char) :=
  splitFirstAux pat (s.length + 1) s

/-- Whether a non-empty pattern occurs in `s` at all. -/
def occursIn (s pat : List Char) : Bool := (splitFirstOcc s pat).isSome

/-- The span (as lines) of the first metadata block of a document, any type
tag: start sentinel, content, end sentinel. -/
def firstBlockLines : List Line → Option (List Line)
  | [] => none
  | l :: rest =>
    match headerType l, termIndex rest with
    | some _, some m => some (l :: rest.take (m + 1))
    | some _, none => firstBlockLines rest
    | none, _ => firstBlockLines rest

/-- Modelled from the spec: `_pep723.extract_inline_meta` is not under
`src/` (only its import is); per 4.1, `extractBlock` "returns the exact
matched span (including delimiters)" of the first regex match, of any type
tag.  Only the span is modelled; the remainder (span removed) is unused by
the stamper. -/
def extract_first_block (s : List Char) : Option (List Char) :=
  (firstBlockLines (linesOf s)).map intercalateNl

/-- Modelled from the spec: `_pep723.includes_inline_metadata` —
`re.search(REGEX, script) is not None` (4.1's `includesBlock`). -/
def includes_inline_metadata (s : List Char) : Bool :=
  (extract_first_block s).isSome

/-- Python whitespace for `str.strip()`. -/
def isPySpace (c : Char) : Bool :=
  c = ' ' ∨ c = '\t' ∨ c = '\n' ∨ c = '\r' ∨ c = '\x0b' ∨ c = '\x0c'

/-- Python `str.strip()`. -/
def pyStrip (s : List Char) : List Char :=
  ((s.dropWhile isPySpace).reverse.dropWhile isPySpace).reverse

/-- Embedding of `_stamp.update_inline_metadata` (lines 96-144): extract the
first metadata block, decode its script-tagged TOML content, parse it
(`parseT` stands for the external `tomlkit.parse`, returning `none` where
tomlkit raises), update `tool.uv.exclude-newer`, re-serialize (`dumps`
stands for `tomlkit.dumps`; its output is stripped), re-encode the comment
block, and splice it with `script.replace(meta_comment, new_meta_comment)`
— which, like Python's `str.replace`, replaces EVERY occurrence. -/
def update_inline_metadata (parseT : List Char → Option TomlDoc)
    (dumps : TomlDoc → List Char) (script : List Char) (dt : Option OffsetDT) :
    Except String (List Char × Action) :=
  match extract_first_block script with
  | none => .error "No PEP 723 metadata block found."
  | some mc =>
    match parse_inline_script_metadata mc with
    | .error e => .error e
    | .ok none => .error "No TOML metadata found in the PEP 723 metadata block."
    | .ok (some toml) =>
      match parseT toml with
      | none => .error "Invalid TOML."
      | some meta =>
        match update_exclude_newer meta (dt.map format_common_iso) with
        | none => .error "Unexpected TOML structure."
        | some (meta2, act) =>
          .ok (pyReplace script mc (mkMetaComment (pyStrip (dumps meta2))), act)

/-- A notebook cell as `stamp` sees it: type, source text (the joined lines;
the source re-splits on write, which does not change the text), and the rest
of the cell object (id, outputs, metadata, ...) kept opaque — `stamp` never
touches it. -/
structure NCell where
  cell_type : String
  source : List Char
  extra : String
deriving DecidableEq

/-- A notebook: document-level metadata (opaque) and cells. -/
structure NB where
  metadata : String
  cells : List NCell
deriving DecidableEq

/-- The cell loop of `_stamp.stamp` (lines 157-162): walk the cells; the
first code cell whose source includes a metadata block is rewritten through
`update_inline_metadata` and the loop breaks; all other cells pass through
untouched.  No matching cell is the "No PEP 723 metadata block found."
error. -/
def stamp_nb_go (parseT : List Char → Option TomlDoc) (dumps : TomlDoc → List Char)
    (dt : Option OffsetDT) : List NCell → Except String (List NCell × Action)
  | [] => .error "No PEP 723 metadata block found."
  | c :: cs =>
    if c.cell_type == "code" && includes_inline_metadata c.source then
      match update_inline_metadata parseT dumps c.source dt with
      | .error e => .error e
      | .ok (s2, act) => .ok ({ c with source := s2 } :: cs, act)
    else
      match stamp_nb_go parseT dumps dt cs with
      | .error e => .error e
      | .ok (cs2, act) => .ok (c :: cs2, act)

/-- Embedding of the notebook branch of `_stamp.stamp` (lines 154-169): the
cells are rewritten as above and the notebook is written back; the
document-level metadata is carried through untouched. -/
def stamp_nb (parseT : List Char → Option TomlDoc) (dumps : TomlDoc → List Char)
    (nb : NB) (dt : Option OffsetDT) : Except String (NB × Action) :=
  match stamp_nb_go parseT dumps dt nb.cells with
  | .error e => .error e
  | .ok (cs2, act) => .ok ({ nb with cells := cs2 }, act)

theorem linesOf_ne_nil (s : List Char) : linesOf s ≠ [] := by
  cases s with
  | nil => simp [linesOf]
  | cons c rest =>
    simp only [linesOf]
    split <;> simp

theorem intercalateNl_linesOf (s : List Char) : intercalateNl (linesOf s) = s := by
  induction s with
  | nil => rfl
  | cons c rest ih =>
    simp only [linesOf]
    split
    · subst c
      cases h : linesOf rest with
      | nil => exact absurd h (linesOf_ne_nil rest)
      | cons l ls =>
        simp only [intercalateNl]
        rw [h] at ih
        simpa using ih
    · cases h : linesOf rest with
      | nil => exact absurd h (linesOf_ne_nil rest)
      | cons l ls =>
        rw [h] at ih
        cases ls with
        | nil => simpa [intercalateNl] using ih
        | cons l' ls' => simpa [intercalateNl] using ih

theorem newline_not_mem_linesOf (s : List Char) :
    ∀ l ∈ linesOf s, '\n' ∉ l := by
  induction s with
  | nil => simp [linesOf]
  | cons c rest ih =>
    simp only [linesOf]
    split
    · intro l hl
      rcases List.mem_cons.mp hl with h | h
      · simp [h]
      · exact ih l h
    · next hc =>
      intro l hl
      cases h : linesOf rest with
      | nil => exact absurd h (linesOf_ne_nil rest)
      | cons l0 ls0 =>
        rw [h] at hl
        simp only [List.headI, List.tail] at hl
        rcases List.mem_cons.mp hl with h1 | h1
        · subst h1
          intro hmem
          rcases List.mem_cons.mp hmem with h2 | h2
          · exact hc h2.symm
          · exact ih l0 (h ▸ List.mem_cons_self l0 ls0) h2
        · exact ih l (h ▸ List.mem_cons_of_mem l0 h1)

theorem findBlocksAux_nil (fuel : Nat) : findBlocksAux fuel [] = [] := by
  cases fuel <;> rfl

/-- Claim C6. For every document text, the metadata parser errors with
"multiple script blocks found" exactly when the regex scan finds two or more
blocks tagged `script` (blocks with other tags never contribute), and a text
with exactly one script block never errors: it yields that block's decoded
content. -/
theorem script_block_multiplicity_error (script : List Char) :
    (isErr (parse_inline_script_metadata script) = true ↔
      2 ≤ (findBlocksLines (linesOf script)).countP (fun b => b.1 == "script")) ∧
    (∀ b, scriptBlocks script = [b] →
      parse_inline_script_metadata script = .ok (some (decodeContentLines b.2))) := by
  have hlen : (findBlocksLines (linesOf script)).countP (fun b => b.1 == "script")
      = (scriptBlocks script).length := by
    rw [scriptBlocks, List.countP_eq_length_filter]
  constructor
  · rw [hlen]
    match h : scriptBlocks script with
    | [] => simp [parse_inline_script_metadata, h, isErr]
    | [b] => simp [parse_inline_script_metadata, h, isErr]
    | b1 :: b2 :: bs =>
      simp only [parse_inline_script_metadata, h, isErr, List.length_cons]
      constructor
      · intro _; omega
      · intro _; trivial
  · intro b hb
    simp [parse_inline_script_metadata, hb]

/-- Witness for C6: a document with two separated script blocks errors, and a
document with a single script block decodes successfully. -/
theorem script_block_multiplicity_error_witness :
    isErr (parse_inline_script_metadata
      "# /// script\n# a = 1\n# ///\nx = 1\n# /// script\n# b = 2\n# ///".data)
        = true ∧
    parse_inline_script_metadata "# /// script\n# a = 1\n# ///\nx = 1\n".data
      = .ok (some "a = 1\n".data) := by
  constructor
  · exact (script_block_multiplicity_error
      "# /// script\n# a = 1\n# ///\nx = 1\n# /// script\n# b = 2\n# ///".data).1.mpr
      (by decide)
  · exact (script_block_multiplicity_error
      "# /// script\n# a = 1\n# ///\nx = 1\n".data).2
      ("script", ["# a = 1".data]) (by decide)

theorem linesOf_no_newline {l : List Char} (h : '\n' ∉ l) : linesOf l = [l] := by
  induction l with
  | nil => rfl
  | cons c rest ih =>
    have hc : c ≠ '\n' := fun hc => h (hc ▸ List.mem_cons_self c rest)
    have hr : '\n' ∉ rest := fun hm => h (List.mem_cons_of_mem c hm)
    simp only [linesOf, if_neg hc, ih hr]
    rfl

theorem linesOf_append_cons_newline {l : Line} (s : List Char) (h : '\n' ∉ l) :
    linesOf (l ++ '\n' :: s) = l :: linesOf s := by
  induction l with
  | nil => simp [linesOf]
  | cons c rest ih =>
    have hc : c ≠ '\n' := fun hc => h (hc ▸ List.mem_cons_self c rest)
    have hr : '\n' ∉ rest := fun hm => h (List.mem_cons_of_mem c hm)
    rw [List.cons_append]
    simp only [linesOf, if_neg hc]
    rw [ih hr]
    rfl

theorem linesOf_intercalateNl (ls : List Line) (hne : ls ≠ [])
    (h : ∀ l ∈ ls, '\n' ∉ l) : linesOf (intercalateNl ls) = ls := by
  induction ls with
  | nil => exact absurd rfl hne
  | cons l rest ih =>
    cases rest with
    | nil =>
      simp only [intercalateNl]
      exact linesOf_no_newline (h l (List.mem_cons_self l []))
    | cons l2 rest2 =>
      have he : intercalateNl (l :: l2 :: rest2) = l ++ '\n' :: intercalateNl (l2 :: rest2) :=
        rfl
      rw [he, linesOf_append_cons_newline _ (h l (List.mem_cons_self l _)),
        ih (by simp) (fun x hx => h x (List.mem_cons_of_mem l hx))]

theorem linesOf_append_newline (s : List Char) :
    linesOf (s ++ ['\n']) = linesOf s ++ [[]] := by
  induction s with
  | nil => rfl
  | cons c rest ih =>
    by_cases hc : c = '\n'
    · subst hc
      rw [List.cons_append]
      simp only [linesOf, if_pos rfl]
      rw [ih]
      rfl
    · rw [List.cons_append]
      simp only [linesOf, if_neg hc]
      rw [ih]
      cases hr : linesOf rest with
      | nil => exact absurd hr (linesOf_ne_nil rest)
      | cons l0 ls0 => simp

theorem linesOf_getLast_nil (t : List Char)
    (h : (linesOf t).getLast? = some []) : t = [] ∨ ∃ s, t = s ++ ['\n'] := by
  induction t with
  | nil => exact Or.inl rfl
  | cons c rest ih =>
    by_cases hc : c = '\n'
    · subst hc
      simp only [linesOf, if_pos rfl, if_true] at h
      cases hr : linesOf rest with
      | nil => exact absurd hr (linesOf_ne_nil rest)
      | cons l0 ls0 =>
        rw [hr, List.getLast?_cons_cons] at h
        rw [← hr] at h
        rcases ih h with h1 | ⟨s, hs⟩
        · exact Or.inr ⟨[], by simp [h1]⟩
        · exact Or.inr ⟨'\n' :: s, by simp [hs]⟩
    · simp only [linesOf, if_neg hc] at h
      cases hr : linesOf rest with
      | nil => exact absurd hr (linesOf_ne_nil rest)
      | cons l0 ls0 =>
        rw [hr] at h
        simp only [List.headI, List.tail_cons] at h
        cases hls : ls0 with
        | nil =>
          subst hls
          simp at h
        | cons a as =>
          subst hls
          rw [List.getLast?_cons_cons] at h
          have h2 : (linesOf rest).getLast? = some [] := by
            rw [hr, List.getLast?_cons_cons]
            exact h
          rcases ih h2 with h1 | ⟨s, hs⟩
          · rw [h1] at hr
            simp [linesOf] at hr
          · exact Or.inr ⟨c :: s, by simp [hs]⟩

theorem commentLine_encodeMetaLine (l : Line) :
    commentLine (encodeMetaLine l) = true := by
  cases l with
  | nil => rfl
  | cons c rest => simp [commentLine, encodeMetaLine]

theorem decodeLine_encodeMetaLine (l : Line) : decodeLine (encodeMetaLine l) = l := by
  cases l with
  | nil => rfl
  | cons c rest => simp [decodeLine, encodeMetaLine, List.isPrefixOf]

theorem newline_not_mem_encodeMetaLine {l : Line} (h : '\n' ∉ l) :
    '\n' ∉ encodeMetaLine l := by
  cases l with
  | nil => simp [encodeMetaLine]
  | cons c rest =>
    simp only [encodeMetaLine, if_neg (by simp : ¬c :: rest = [])]
    intro hmem
    rcases List.mem_cons.mp hmem with h1 | h1
    · exact absurd h1.symm (by decide)
    · rcases List.mem_cons.mp h1 with h2 | h2
      · exact absurd h2.symm (by decide)
      · exact h h2

theorem commentRunLen_append_all {ls : List Line}
    (h : ∀ l ∈ ls, commentLine l = true) (rest : List Line) :
    commentRunLen (ls ++ rest) = ls.length + commentRunLen rest := by
  induction ls with
  | nil => simp [commentRunLen]
  | cons l ls ih =>
    rw [List.cons_append]
    simp only [commentRunLen, if_pos (h l (List.mem_cons_self l ls))]
    rw [ih (fun x hx => h x (List.mem_cons_of_mem l hx))]
    simp only [List.length_cons]
    omega

theorem getLast_filter_range (n : Nat) (p : Nat → Bool) (hp : p n = true) :
    ((List.range (n + 1)).filter p).getLast? = some n := by
  rw [List.range_succ, List.filter_append]
  have h1 : List.filter p [n] = [n] := by simp [hp]
  rw [h1]
  rw [List.getLast?_append]
  rfl

theorem getD_append_length {α : Type} (xs : List α) (y : α) (ys : List α) (d : α) :
    (xs ++ y :: ys).getD xs.length d = y := by
  induction xs with
  | nil => rfl
  | cons x xs ih => simpa using ih

theorem termIndex_encoded (P : List Line) (hne : P ≠ []) :
    termIndex (P.map encodeMetaLine ++ [termLine]) = some P.length := by
  have hall : ∀ l ∈ P.map encodeMetaLine, commentLine l = true := by
    intro l hl
    rcases List.mem_map.mp hl with ⟨x, _, hx⟩
    exact hx ▸ commentLine_encodeMetaLine x
  have hrun : commentRunLen (P.map encodeMetaLine ++ [termLine])
      = P.length + 1 := by
    rw [commentRunLen_append_all hall]
    simp [commentRunLen, commentLine, termLine]
  rw [termIndex, hrun]
  have hl : 0 < P.length := List.length_pos.mpr hne
  refine getLast_filter_range P.length _ ?_
  have hget : (P.map encodeMetaLine ++ [termLine]).getD P.length [] = termLine := by
    have h0 := getD_append_length (P.map encodeMetaLine) termLine [] []
    simp only [List.length_map] at h0
    exact h0
  simp only [hget, beq_self_eq_true, Bool.and_true, decide_eq_true_eq]
  omega

theorem findBlocks_encoded (P : List Line) (hne : P ≠ []) :
    findBlocksLines
        (headerScriptLine :: (P.map encodeMetaLine ++ [termLine]))
      = [("script", P.map encodeMetaLine)] := by
  have hterm := termIndex_encoded P hne
  have hhd : headerType headerScriptLine = some "script" := by decide
  rw [findBlocksLines]
  simp only [List.length_cons]
  rw [findBlocksAux]
  rw [hhd, hterm]
  simp only
  have htake : (P.map encodeMetaLine ++ [termLine]).take P.length
      = P.map encodeMetaLine := by
    have : P.length = (P.map encodeMetaLine).length := by simp
    rw [this, List.take_left]
  have hdrop : (P.map encodeMetaLine ++ [termLine]).drop (P.length + 1) = [] := by
    rw [show P.length + 1 = (P.map encodeMetaLine).length + 1 by simp]
    rw [List.drop_append]
    rfl
  rw [htake, hdrop, findBlocksAux_nil]

theorem flatten_map_newline (L : List Line) (hne : L ≠ []) :
    (L.map (fun l => l ++ ['\n'])).flatten = intercalateNl L ++ ['\n'] := by
  induction L with
  | nil => exact absurd rfl hne
  | cons l rest ih =>
    cases rest with
    | nil => simp [intercalateNl]
    | cons l2 rest2 =>
      have he : intercalateNl (l :: l2 :: rest2)
          = l ++ '\n' :: intercalateNl (l2 :: rest2) := rfl
      rw [List.map_cons, List.flatten_cons, ih (by simp), he]
      simp

theorem pySplitlines_ne_nil {t : List Char} (hne : t ≠ []) :
    pySplitlines t ≠ [] := by
  rw [pySplitlines, if_neg hne]
  by_cases h : (linesOf t).getLast? = some []
  · rw [if_pos h]
    intro hd
    rcases linesOf_getLast_nil t h with h1 | ⟨s, hs⟩
    · exact hne h1
    · have : linesOf t = linesOf s ++ [[]] := by rw [hs, linesOf_append_newline]
      rw [this] at hd
      simp at hd
      exact linesOf_ne_nil s hd
  · rw [if_neg h]
    exact linesOf_ne_nil t

theorem newline_not_mem_pySplitlines (t : List Char) :
    ∀ l ∈ pySplitlines t, '\n' ∉ l := by
  intro l hl
  rw [pySplitlines] at hl
  by_cases h0 : t = []
  · rw [if_pos h0] at hl
    simp at hl
  · rw [if_neg h0] at hl
    by_cases h : (linesOf t).getLast? = some []
    · rw [if_pos h] at hl
      exact newline_not_mem_linesOf t l (List.dropLast_subset _ hl)
    · rw [if_neg h] at hl
      exact newline_not_mem_linesOf t l hl

/-- The decoded content of an encoded block: every line of the split text,
re-terminated with a newline. -/
theorem decode_encoded (P : List Line) :
    decodeContentLines (P.map encodeMetaLine)
      = (P.map (fun l => l ++ ['\n'])).flatten := by
  rw [decodeContentLines, List.map_map]
  congr 1
  apply List.map_congr_left
  intro l _
  simp [decodeLine_encodeMetaLine]

theorem flatten_pySplitlines (t : List Char) (hne : t ≠ []) :
    ((pySplitlines t).map (fun l => l ++ ['\n'])).flatten
      = if t.getLast? = some '\n' then t else t ++ ['\n'] := by
  by_cases hend : (linesOf t).getLast? = some []
  · rcases linesOf_getLast_nil t hend with h1 | ⟨s, hs⟩
    · exact absurd h1 hne
    · have hsplit : pySplitlines t = linesOf s := by
        rw [pySplitlines, if_neg hne, if_pos hend, hs, linesOf_append_newline,
          List.dropLast_concat]
      have hcond : t.getLast? = some '\n' := by
        rw [hs, List.getLast?_concat]
      rw [hsplit, if_pos hcond,
        flatten_map_newline _ (linesOf_ne_nil s), intercalateNl_linesOf, ← hs]
  · have hsplit : pySplitlines t = linesOf t := by
      rw [pySplitlines, if_neg hne, if_neg hend]
    have hcond : t.getLast? ≠ some '\n' := by
      intro hl
      have h0 : t.dropLast ++ [t.getLast hne] = t := List.dropLast_append_getLast hne
      rw [List.getLast?_eq_getLast t hne] at hl
      have hg : t.getLast hne = '\n' := Option.some.inj hl
      apply hend
      rw [← h0, hg, linesOf_append_newline, List.getLast?_concat]
    rw [hsplit, if_neg hcond,
      flatten_map_newline _ (linesOf_ne_nil t), intercalateNl_linesOf]

/-- Claim C5, corrected. For every non-empty TOML text `t` (without exotic
line separators, and with no line equal to the end sentinel), decoding the
encoded block through the parser yields `t` when `t` ends with a newline and
`t` with a newline appended otherwise — not always exactly `t` as the claim
states (the decoder keeps each content line's newline, so a text without a
final newline gains one).  Encoding prefixes every non-empty line with `# `
and every empty line with bare `#`. -/
theorem metadata_codec_round_trip (t : List Char) (hne : t ≠ [])
    (hsep : ∀ c ∈ t, c ∉ pyLineSeps)
    (hsent : ∀ l ∈ pySplitlines t, l ≠ "///".data) :
    parse_inline_script_metadata (mkMetaComment t)
        = .ok (some (if t.getLast? = some '\n' then t else t ++ ['\n'])) ∧
    ∀ l ∈ (pySplitlines t).map encodeMetaLine, l = ['#'] ∨ l.take 2 = ['#', ' '] := by
  have hP : pySplitlines t ≠ [] := pySplitlines_ne_nil hne
  constructor
  · have hlines : linesOf (mkMetaComment t)
        = headerScriptLine :: ((pySplitlines t).map encodeMetaLine ++ [termLine]) := by
      rw [mkMetaComment]
      apply linesOf_intercalateNl _ (by simp)
      intro l hl
      rcases List.mem_cons.mp hl with h1 | h1
      · rw [h1]; decide
      · rcases List.mem_append.mp h1 with h2 | h2
        · rcases List.mem_map.mp h2 with ⟨x, hx, hxe⟩
          exact hxe ▸
            newline_not_mem_encodeMetaLine (newline_not_mem_pySplitlines t x hx)
        · rw [List.mem_singleton.mp h2]; decide
    have hblocks : scriptBlocks (mkMetaComment t)
        = [("script", (pySplitlines t).map encodeMetaLine)] := by
      rw [scriptBlocks, hlines, findBlocks_encoded _ hP]
      rfl
    rw [parse_inline_script_metadata]
    rw [hblocks]
    simp only
    rw [decode_encoded, flatten_pySplitlines t hne]
  · intro l hl
    rcases List.mem_map.mp hl with ⟨x, _, hxe⟩
    cases x with
    | nil => exact Or.inl (by rw [← hxe]; rfl)
    | cons c rest => exact Or.inr (by rw [← hxe]; rfl)

/-- Counterexample to C5 as stated: for the sentinel-free TOML text `a = 1`
(no trailing newline) the decoded result of the encoded block is `a = 1\n`,
not the original text. -/
theorem metadata_codec_round_trip_cex :
    parse_inline_script_metadata (mkMetaComment "a = 1".data)
        = .ok (some "a = 1\n".data) ∧
    "a = 1\n".data ≠ "a = 1".data :=
  ⟨rfl, by decide⟩

/-- Witness for C5: a newline-terminated TOML text round-trips exactly. -/
theorem metadata_codec_round_trip_witness :
    parse_inline_script_metadata (mkMetaComment "a = 1\n".data)
        = .ok (some "a = 1\n".data) := by
  have h := (metadata_codec_round_trip "a = 1\n".data (by decide) (by decide)
    (by decide)).1
  rw [if_pos (by decide)] at h
  exact h

/-- Claim C1, corrected. The lookup used by `run` inspects only the first
code cell: it returns that cell's parse result (decoded block content if it
has a well-formed script block, `None` if not), and `None` when the notebook
has no code cells; a metadata block in a later code cell is never consulted
(the claim's "first code cell whose source contains a block" is wrong when
the first code cell has no block). -/
theorem to_notebook_meta_first_code_cell (cells : List NbCell) :
    (cells.filter (fun c => c.cell_type == "code") = [] →
      to_notebook_meta cells = .ok none) ∧
    (∀ c rest, cells.filter (fun c => c.cell_type == "code") = c :: rest →
      to_notebook_meta cells = parse_inline_script_metadata c.source.flatten) := by
  constructor
  · intro h
    simp [to_notebook_meta, h]
  · intro c rest h
    simp [to_notebook_meta, h]

/-- Counterexample to C1 as stated: the first code cell has no metadata
block while the second one does; the claim demands the second cell's decoded
content (`a = 1\n`), but the lookup returns `None`. -/
theorem to_notebook_meta_cex :
    to_notebook_meta
        [⟨"code", ["x = 1\n".data]⟩,
         ⟨"code", ["# /// script\n".data, "# a = 1\n".data, "# ///".data]⟩]
      = .ok none ∧
    parse_inline_script_metadata
        (["# /// script\n".data, "# a = 1\n".data, "# ///".data] : List Line).flatten
      = .ok (some "a = 1\n".data) :=
  ⟨rfl, rfl⟩

/-- Witness for C1: a notebook whose first code cell carries the block
(after a markdown cell, which is skipped by the type filter) decodes it. -/
theorem to_notebook_meta_first_code_cell_witness :
    to_notebook_meta
        [⟨"markdown", ["text".data]⟩,
         ⟨"code", ["# /// script\n".data, "# a = 1\n".data, "# ///".data]⟩]
      = .ok (some "a = 1\n".data) := by
  have h := (to_notebook_meta_first_code_cell
      [⟨"markdown", ["text".data]⟩,
       ⟨"code", ["# /// script\n".data, "# a = 1\n".data, "# ///".data]⟩]).2
    ⟨"code", ["# /// script\n".data, "# a = 1\n".data, "# ///".data]⟩ [] rfl
  exact h

/-- Closed form of `update_exclude_newer` on a write (non-clear) request. -/
theorem update_exclude_newer_some (meta tool0 uv0 : TomlDoc) (cur : List Char)
    (htool : asTable (tget meta "tool") = some tool0)
    (huv : asTable (tget tool0 "uv") = some uv0) :
    update_exclude_newer meta (some cur) =
      some (tset (tset meta "tool" (.table (tset tool0 "uv" (.table uv0)))) "tool"
              (.table (tset (tset tool0 "uv" (.table uv0)) "uv"
                (.table (tset uv0 "exclude-newer" (.str cur))))),
            match tget uv0 "exclude-newer" with
            | none => Action.create cur
            | some prev => Action.update prev cur) := by
  simp only [update_exclude_newer, htool, huv]

/-- Claim C3. Stamp action classification: with no stored `exclude-newer`,
stamping records `CreateAction` with the new serialized timestamp and
clearing records `DeleteAction previous=None`; with a stored value `prev`,
stamping records `UpdateAction previous=prev` — for every new string `cur`,
including `cur` equal to the stored one — and clearing records
`DeleteAction previous=prev`. -/
theorem stamp_action_classification (meta : TomlDoc) (tool0 uv0 : TomlDoc)
    (cur : List Char)
    (htool : asTable (tget meta "tool") = some tool0)
    (huv : asTable (tget tool0 "uv") = some uv0) :
    (tget uv0 "exclude-newer" = none →
      (∃ m, update_exclude_newer meta (some cur) = some (m, .create cur)) ∧
      (∃ m, update_exclude_newer meta none = some (m, .delete none))) ∧
    (∀ prev, tget uv0 "exclude-newer" = some prev →
      (∃ m, update_exclude_newer meta (some cur) = some (m, .update prev cur)) ∧
      (∃ m, update_exclude_newer meta none = some (m, .delete (some prev)))) := by
  constructor
  · intro hnone
    constructor
    · exact ⟨_, by rw [update_exclude_newer_some meta tool0 uv0 cur htool huv, hnone]⟩
    · simp only [update_exclude_newer, htool, huv, hnone]
      split
      · split
        · exact ⟨_, rfl⟩
        · exact ⟨_, rfl⟩
      · exact ⟨_, rfl⟩
  · intro prev hprev
    constructor
    · exact ⟨_, by rw [update_exclude_newer_some meta tool0 uv0 cur htool huv, hprev]⟩
    · simp only [update_exclude_newer, htool, huv, hprev]
      split
      · split
        · exact ⟨_, rfl⟩
        · exact ⟨_, rfl⟩
      · exact ⟨_, rfl⟩

/-- Witness for C3: on a document with a stored timestamp, re-stamping with
the very same serialized string still records an Update with that previous
string, and clearing records a Delete carrying it. -/
theorem stamp_action_classification_witness :
    (∃ m, update_exclude_newer
        [("tool", .table [("uv", .table [("exclude-newer", .str "2024-01-01T00:00:00-05:00".data)])])]
        (some "2024-01-01T00:00:00-05:00".data)
      = some (m, .update (.str "2024-01-01T00:00:00-05:00".data)
          "2024-01-01T00:00:00-05:00".data)) ∧
    (∃ m, update_exclude_newer
        [("tool", .table [("uv", .table [("exclude-newer", .str "2024-01-01T00:00:00-05:00".data)])])]
        none
      = some (m, .delete (some (.str "2024-01-01T00:00:00-05:00".data)))) :=
  (stamp_action_classification
    [("tool", .table [("uv", .table [("exclude-newer", .str "2024-01-01T00:00:00-05:00".data)])])]
    [("uv", .table [("exclude-newer", .str "2024-01-01T00:00:00-05:00".data)])]
    [("exclude-newer", .str "2024-01-01T00:00:00-05:00".data)]
    "2024-01-01T00:00:00-05:00".data rfl rfl).2
    (.str "2024-01-01T00:00:00-05:00".data) rfl

theorem tget_tset_self (d : TomlDoc) (k : String) (v : Toml) :
    tget (tset d k v) k = some v := by
  induction d with
  | nil => simp [tget, tset]
  | cons p rest ih =>
    obtain ⟨k', v'⟩ := p
    by_cases h : k' = k
    · subst h
      simp [tget, tset]
    · rw [tset, if_neg (by simpa using h), tget, if_neg (by simpa using h)]
      exact ih

theorem tget_tpop_ne (d : TomlDoc) {k k' : String} (h : k' ≠ k) :
    tget (tpop d k) k' = tget d k' := by
  induction d with
  | nil => rfl
  | cons p rest ih =>
    obtain ⟨k0, v0⟩ := p
    by_cases h0 : k0 = k
    · subst h0
      rw [tpop, if_pos (by simp), tget, if_neg (by simpa using fun he => h he.symm)]
    · rw [tpop, if_neg (by simpa using h0)]
      by_cases h1 : k0 = k'
      · subst h1
        rw [tget, if_pos (by simp), tget, if_pos (by simp)]
      · rw [tget, if_neg (by simpa using h1), tget, if_neg (by simpa using h1)]
        exact ih

theorem tget_eq_none_of_not_mem (d : TomlDoc) (k : String)
    (h : k ∉ d.map Prod.fst) : tget d k = none := by
  induction d with
  | nil => rfl
  | cons p rest ih =>
    obtain ⟨k0, v0⟩ := p
    have h0 : ¬k0 = k := fun he => h (by simp [he])
    rw [tget, if_neg (by simpa using h0)]
    exact ih (fun hm => h (by simp; right; simpa using hm))

theorem tget_tpop_self (d : TomlDoc) (k : String)
    (hnd : (d.map Prod.fst).Nodup) : tget (tpop d k) k = none := by
  induction d with
  | nil => rfl
  | cons p rest ih =>
    obtain ⟨k0, v0⟩ := p
    simp only [List.map_cons, List.nodup_cons] at hnd
    by_cases h0 : k0 = k
    · subst h0
      rw [tpop, if_pos (by simp)]
      exact tget_eq_none_of_not_mem rest k0 (by simpa using hnd.1)
    · rw [tpop, if_neg (by simpa using h0), tget, if_neg (by simpa using h0)]
      exact ih hnd.2

theorem tset_ne_nil (d : TomlDoc) (k : String) (v : Toml) : tset d k v ≠ [] := by
  cases d with
  | nil => simp [tset]
  | cons p rest =>
    obtain ⟨k', v'⟩ := p
    rw [tset]
    split <;> simp

theorem mem_keys_tset (d : TomlDoc) (k k'' : String) (v : Toml)
    (h : k'' ∈ (tset d k v).map Prod.fst) : k'' ∈ d.map Prod.fst ∨ k'' = k := by
  induction d with
  | nil =>
    simp [tset] at h
    exact Or.inr h
  | cons p rest ih =>
    obtain ⟨k0, v0⟩ := p
    by_cases h0 : k0 = k
    · subst h0
      rw [tset, if_pos (by simp)] at h
      simp only [List.map_cons, List.mem_cons] at h
      rcases h with h | h
      · exact Or.inr h
      · exact Or.inl (by simp [h])
    · rw [tset, if_neg (by simpa using h0)] at h
      simp only [List.map_cons, List.mem_cons] at h
      rcases h with h | h
      · exact Or.inl (by simp [h])
      · rcases ih h with h1 | h1
        · exact Or.inl (by simp; right; simpa using h1)
        · exact Or.inr h1

theorem nodup_keys_tset (d : TomlDoc) (k : String) (v : Toml)
    (hnd : (d.map Prod.fst).Nodup) : ((tset d k v).map Prod.fst).Nodup := by
  induction d with
  | nil => simp [tset]
  | cons p rest ih =>
    obtain ⟨k0, v0⟩ := p
    simp only [List.map_cons, List.nodup_cons] at hnd
    by_cases h0 : k0 = k
    · subst h0
      rw [tset, if_pos (by simp)]
      simp only [List.map_cons, List.nodup_cons]
      exact hnd
    · rw [tset, if_neg (by simpa using h0)]
      simp only [List.map_cons, List.nodup_cons]
      refine ⟨?_, ih hnd.2⟩
      intro hmem
      rcases mem_keys_tset rest k k0 v hmem with h1 | h1
      · exact hnd.1 h1
      · exact h0 h1

theorem tget_some_ne_nil {d : TomlDoc} {k : String} {v : Toml}
    (h : tget d k = some v) : d ≠ [] := by
  intro he
  rw [he] at h
  exact Option.noConfusion h

/-- Claim C8. After a stamp clear, the rewritten TOML document holds no empty
`tool.uv` and no empty `tool` table: if removing `exclude-newer` empties
`tool.uv` it is removed, and if that empties `tool` it is removed too; other
keys of `tool.uv` survive the clear together with both tables. -/
theorem stamp_clear_no_empty_tables (meta tool0 uv0 meta' : TomlDoc) (act : Action)
    (htool : asTable (tget meta "tool") = some tool0)
    (huv : asTable (tget tool0 "uv") = some uv0)
    (hndm : (meta.map Prod.fst).Nodup)
    (hndt : (tool0.map Prod.fst).Nodup)
    (hupd : update_exclude_newer meta none = some (meta', act)) :
    (∀ t, tget meta' "tool" = some (.table t) →
      t ≠ [] ∧ ∀ u, tget t "uv" = some (.table u) → u ≠ []) ∧
    (∀ k v, k ≠ "exclude-newer" → tget uv0 k = some v →
      ∃ t u, tget meta' "tool" = some (.table t) ∧ tget t "uv" = some (.table u) ∧
        tget u k = some v) := by
  simp only [update_exclude_newer, htool, huv] at hupd
  by_cases hemp : (tpop uv0 "exclude-newer").isEmpty = true
  · have hcontra : ∀ k v, k ≠ "exclude-newer" → tget uv0 k = some v → False := by
      intro k v hk hv
      have h1 : tget (tpop uv0 "exclude-newer") k = some v := by
        rw [tget_tpop_ne uv0 hk]
        exact hv
      rw [List.isEmpty_iff.mp hemp] at h1
      exact Option.noConfusion h1
    by_cases hemp2 : (tpop (tset tool0 "uv" (.table uv0)) "uv").isEmpty = true
    · rw [if_pos hemp, if_pos hemp2] at hupd
      simp only [Option.some.injEq, Prod.mk.injEq] at hupd
      obtain ⟨hm, -⟩ := hupd
      subst hm
      constructor
      · intro t ht
        rw [tget_tpop_self _ _
          (nodup_keys_tset meta "tool" _ hndm)] at ht
        exact Option.noConfusion ht
      · intro k v hk hv
        exact absurd (hcontra k v hk hv) not_false
    · rw [if_pos hemp, if_neg hemp2] at hupd
      simp only [Option.some.injEq, Prod.mk.injEq] at hupd
      obtain ⟨hm, -⟩ := hupd
      subst hm
      constructor
      · intro t ht
        rw [tget_tset_self] at ht
        simp only [Option.some.injEq, Toml.table.injEq] at ht
        subst ht
        constructor
        · intro he
          exact hemp2 (by simp [he])
        · intro u hu
          rw [tget_tpop_self _ _
            (nodup_keys_tset tool0 "uv" _ hndt)] at hu
          exact Option.noConfusion hu
      · intro k v hk hv
        exact absurd (hcontra k v hk hv) not_false
  · rw [if_neg hemp] at hupd
    simp only [Option.some.injEq, Prod.mk.injEq] at hupd
    obtain ⟨hm, -⟩ := hupd
    subst hm
    constructor
    · intro t ht
      rw [tget_tset_self] at ht
      simp only [Option.some.injEq, Toml.table.injEq] at ht
      subst ht
      constructor
      · exact tset_ne_nil _ _ _
      · intro u hu
        rw [tget_tset_self] at hu
        simp only [Option.some.injEq, Toml.table.injEq] at hu
        subst hu
        intro he
        exact hemp (by simp [he])
    · intro k v hk hv
      refine ⟨_, _, tget_tset_self _ _ _, tget_tset_self _ _ _, ?_⟩
      rw [tget_tpop_ne uv0 hk]
      exact hv

/-- Witness for C8: clearing a document whose `tool.uv` holds another key
keeps that key reachable, and the surviving `tool`/`tool.uv` tables are
non-empty. -/
theorem stamp_clear_no_empty_tables_witness :
    ∃ t u, tget
        (tset (tset
            [("tool", Toml.table [("uv", Toml.table
              [("exclude-newer", Toml.str "x".data), ("k", Toml.str "y".data)])])]
          "tool" (.table (tset [("uv", Toml.table
              [("exclude-newer", Toml.str "x".data), ("k", Toml.str "y".data)])]
            "uv" (.table [("exclude-newer", Toml.str "x".data), ("k", Toml.str "y".data)]))))
          "tool" (.table (tset (tset [("uv", Toml.table
              [("exclude-newer", Toml.str "x".data), ("k", Toml.str "y".data)])]
            "uv" (.table [("exclude-newer", Toml.str "x".data), ("k", Toml.str "y".data)]))
            "uv" (.table (tpop [("exclude-newer", Toml.str "x".data), ("k", Toml.str "y".data)]
              "exclude-newer")))))
        "tool" = some (.table t) ∧ tget t "uv" = some (.table u) ∧
      tget u "k" = some (Toml.str "y".data) := by
  have h := (stamp_clear_no_empty_tables
      [("tool", Toml.table [("uv", Toml.table
        [("exclude-newer", Toml.str "x".data), ("k", Toml.str "y".data)])])]
      [("uv", Toml.table [("exclude-newer", Toml.str "x".data), ("k", Toml.str "y".data)])]
      [("exclude-newer", Toml.str "x".data), ("k", Toml.str "y".data)]
      _ _ rfl rfl (by simp) (by simp) rfl).2
    "k" (Toml.str "y".data) (by decide) rfl
  exact h

theorem parseDateCommonIso_length {s : List Char} {d : GDate}
    (h : parseDateCommonIso s = some d) : s.length = 10 := by
  unfold parseDateCommonIso at h
  split at h
  · simp
  · exact Option.noConfusion h

/-- Claim C4. A stamp time argument that parses as a plain calendar date (no
time component, no offset — so both timestamp parsers fail) resolves to
midnight at the start of the NEXT day at the system's local fixed offset;
in particular `2006-01-02` under local offset `-05:00` serializes to
`2006-01-03T00:00:00-05:00`. -/
theorem stamp_date_only_resolution :
    (∀ (off : Int) (s : List Char) (d : GDate), parseDateCommonIso s = some d →
      parse_offset_datetime off s = some ⟨nextDay d, 0, 0, 0, off⟩) ∧
    (parse_offset_datetime (-300) "2006-01-02".data).map format_common_iso
      = some "2006-01-03T00:00:00-05:00".data := by
  constructor
  · intro off s d h
    have hlen : s.length = 10 := parseDateCommonIso_length h
    have htake : s.take 10 = s := List.take_of_length_le (by omega)
    have hdrop : s.drop 10 = [] := List.drop_eq_nil_of_le (by omega)
    have hciso : parse_common_iso_odt s = none := by
      rw [parse_common_iso_odt, htake, hdrop, h]
    have hrfc : parse_rfc3339_odt s = none := by
      rw [parse_rfc3339_odt, htake, hdrop, h]
    rw [parse_offset_datetime, hciso, hrfc, h]
  · rfl

/-- Witness for C4: the date `2006-01-02` resolves to midnight at the start
of `2006-01-03` with the given local offset. -/
theorem stamp_date_only_resolution_witness :
    parse_offset_datetime (-300) "2006-01-02".data
      = some ⟨⟨2006, 1, 3⟩, 0, 0, 0, -300⟩ := by
  have h := stamp_date_only_resolution.1 (-300) "2006-01-02".data
    ⟨2006, 1, 2⟩ rfl
  exact h

/-- Claim C2, code bug. Evaluation of the merge at the failing input: the new
cell's source equals the second previous cell `B` exactly, so `B` is
consumed and transferred — but the loop then still consults the accumulated
scores, finds the earlier cell `A` at `0.9 > 0.8`, consumes it too, and
`A`'s id/outputs/execution_count OVERWRITE the exact match's on the same new
cell; the claim (and the source's own "skip the rest" comment) say the
exact match's transfer is final. -/
theorem apply_diff_exact_match_overwritten :
    apply_diff ratioCex (mkRat 4 5)
        [⟨some "a", ["abcdefghiX"], some ["outA"], some (some 1)⟩,
         ⟨some "b", ["abcdefghij"], some ["outB"], some (some 2)⟩]
        [⟨none, ["abcdefghij"], none, none⟩]
      = ([⟨some "a", ["abcdefghij"], some ["outA"], some (some 1)⟩], [],
         [⟨some "b", ["abcdefghij"], some ["outB"], some (some 2)⟩,
          ⟨some "a", ["abcdefghiX"], some ["outA"], some (some 1)⟩]) := by
  rfl

theorem scanScores_exact_mem {r : String → String → ℚ} {n : String}
    {l : List ECell} {p : ECell} (h : (scanScores r n l).2 = some p) : p ∈ l := by
  induction l with
  | nil => exact Option.noConfusion h
  | cons q qs ih =>
    rw [scanScores] at h
    by_cases hq : r n (srcJoin q) = 1
    · rw [if_pos hq] at h
      exact (Option.some.inj h) ▸ List.mem_cons_self q qs
    · rw [if_neg hq] at h
      exact List.mem_cons_of_mem q (ih h)

theorem scanScores_scores_mem {r : String → String → ℚ} {n : String}
    {l : List ECell} {x : ℚ × ECell} (h : x ∈ (scanScores r n l).1) :
    x.2 ∈ l ∧ x.1 = r n (srcJoin x.2) ∧ x.1 ≠ 1 := by
  induction l with
  | nil => exact absurd h (by simp [scanScores])
  | cons q qs ih =>
    rw [scanScores] at h
    by_cases hq : r n (srcJoin q) = 1
    · rw [if_pos hq] at h
      exact absurd h (by simp)
    · rw [if_neg hq] at h
      rcases List.mem_cons.mp h with h1 | h1
      · subst h1
        exact ⟨List.mem_cons_self q qs, rfl, hq⟩
      · obtain ⟨hm, he, hne⟩ := ih h1
        exact ⟨List.mem_cons_of_mem q hm, he, hne⟩

theorem foldl_max_mem (xs : List (ℚ × ECell)) (a : ℚ × ECell) :
    xs.foldl (fun a b => if b.1 > a.1 then b else a) a ∈ a :: xs := by
  induction xs generalizing a with
  | nil => simp
  | cons x xs ih =>
    rw [List.foldl_cons]
    have h := ih (if x.1 > a.1 then x else a)
    rcases List.mem_cons.mp h with h1 | h1
    · rw [h1]
      split
      · simp
      · simp
    · simp [List.mem_cons_of_mem, h1]

theorem maxFirst_mem {xs : List (ℚ × ECell)} {x : ℚ × ECell}
    (h : maxFirst xs = some x) : x ∈ xs := by
  cases xs with
  | nil => exact Option.noConfusion h
  | cons y ys =>
    rw [maxFirst] at h
    have := foldl_max_mem ys y
    rw [Option.some.inj h] at this
    exact this

theorem count_erase_add {a : ECell} {l : List ECell} (h : a ∈ l) (q : ECell) :
    (l.erase a).count q + (if a = q then 1 else 0) = l.count q := by
  by_cases hq : a = q
  · subst hq
    rw [if_pos rfl, List.count_erase_self]
    have hpos : 1 ≤ l.count a := List.one_le_count_iff.mpr h
    omega
  · rw [if_neg hq, Nat.add_zero, List.count_erase_of_ne (fun he => hq he.symm)]

theorem scanScores_exact_ratio {r : String → String → ℚ} {n : String}
    {l : List ECell} {p : ECell} (h : (scanScores r n l).2 = some p) :
    r n (srcJoin p) = 1 := by
  induction l with
  | nil => exact Option.noConfusion h
  | cons q qs ih =>
    rw [scanScores] at h
    by_cases hq : r n (srcJoin q) = 1
    · rw [if_pos hq] at h
      rw [← Option.some.inj h]
      exact hq
    · rw [if_neg hq] at h
      exact ih h

theorem mergeStep_count (r : String → String → ℚ) (minSim : ℚ)
    (prevs : List ECell) (n : ECell) (q : ECell) :
    ((mergeStep r minSim prevs n).2.1).count q
        + ((mergeStep r minSim prevs n).2.2).count q
      = prevs.count q := by
  cases hex : (scanScores r (srcJoin n) prevs).2 with
  | none =>
    cases hmax : maxFirst (scanScores r (srcJoin n) prevs).1 with
    | none => simp [mergeStep, hex, hmax]
    | some sp =>
      by_cases hth : minSim < sp.1
      · have hmem : sp.2 ∈ prevs := (scanScores_scores_mem (maxFirst_mem hmax)).1
        have hca := count_erase_add hmem q
        simp only [mergeStep, hex, hmax, if_pos hth]
        simp only [List.count_nil, List.count_cons, List.count_append]
        by_cases h2 : sp.2 = q <;> simp [h2] at hca ⊢ <;> omega
      · simp [mergeStep, hex, hmax, hth]
  | some p1 =>
    have hexm : p1 ∈ prevs := scanScores_exact_mem hex
    have hca1 := count_erase_add hexm q
    cases hmax : maxFirst (scanScores r (srcJoin n) prevs).1 with
    | none =>
      simp only [mergeStep, hex, hmax]
      simp only [List.count_nil, List.count_cons, List.count_append]
      by_cases h1 : p1 = q <;> simp [h1] at hca1 ⊢ <;> omega
    | some sp =>
      by_cases hth : minSim < sp.1
      · obtain ⟨hmem, hval, hne1⟩ := scanScores_scores_mem (maxFirst_mem hmax)
        have hner : sp.2 ≠ p1 := by
          intro he
          exact hne1 (by rw [hval, he, scanScores_exact_ratio hex])
        have hmem2 : sp.2 ∈ prevs.erase p1 :=
          (List.mem_erase_of_ne hner).mpr hmem
        have hca2 := count_erase_add hmem2 q
        simp only [mergeStep, hex, hmax, if_pos hth]
        simp only [List.count_nil, List.count_cons, List.count_append]
        by_cases h1 : p1 = q <;> by_cases h2 : sp.2 = q <;>
          simp [h1, h2] at hca1 hca2 ⊢ <;> omega
      · simp only [mergeStep, hex, hmax, if_neg hth]
        simp only [List.count_nil, List.count_cons, List.count_append]
        by_cases h1 : p1 = q <;> simp [h1] at hca1 ⊢ <;> omega

theorem apply_diff_count (r : String → String → ℚ) (minSim : ℚ)
    (news : List ECell) (prevs : List ECell) (q : ECell) :
    ((apply_diff r minSim prevs news).2.1).count q
        + ((apply_diff r minSim prevs news).2.2).count q
      = prevs.count q := by
  induction news generalizing prevs with
  | nil => simp [apply_diff]
  | cons n ns ih =>
    simp only [apply_diff, List.count_append]
    have h1 := mergeStep_count r minSim prevs n q
    have h2 := ih (mergeStep r minSim prevs n).2.1
    omega

/-- Claim C10. The editor merge consumes each previous cell at most once: the
multiset of previous cells consumed (and hence transferred) by `apply_diff`
is a sub-multiset of the original previous cells, so when the previous
cells are pairwise distinct no previous cell's attributes are transferred
twice. -/
theorem apply_diff_consumes_each_prev_once (r : String → String → ℚ)
    (minSim : ℚ) (prevs news : List ECell) :
    (∀ q, ((apply_diff r minSim prevs news).2.2).count q ≤ prevs.count q) ∧
    (prevs.Nodup → ((apply_diff r minSim prevs news).2.2).Nodup) := by
  have hc : ∀ q, ((apply_diff r minSim prevs news).2.2).count q ≤ prevs.count q := by
    intro q
    have := apply_diff_count r minSim news prevs q
    omega
  refine ⟨hc, ?_⟩
  intro hnd
  rw [List.nodup_iff_count_le_one] at hnd ⊢
  intro a
  exact le_trans (hc a) (hnd a)

/-- Witness for C10: at the C2 input (where one new cell even consumes two
previous cells) the consumed list is still duplicate-free. -/
theorem apply_diff_consumes_each_prev_once_witness :
    ((apply_diff ratioCex (mkRat 4 5)
        [⟨some "a", ["abcdefghiX"], some ["outA"], some (some 1)⟩,
         ⟨some "b", ["abcdefghij"], some ["outB"], some (some 2)⟩]
        [⟨none, ["abcdefghij"], none, none⟩]).2.2).Nodup :=
  (apply_diff_consumes_each_prev_once ratioCex (mkRat 4 5)
      [⟨some "a", ["abcdefghiX"], some ["outA"], some (some 1)⟩,
       ⟨some "b", ["abcdefghij"], some ["outB"], some (some 2)⟩]
      [⟨none, ["abcdefghij"], none, none⟩]).2 (by decide)

/-- Claim C9. When the external editor exits non-zero, `edit` propagates
`EditorAbortedError` before any merge or write: the on-disk notebook is
byte-identical to its prior state; and on every exit path — abort or
success — the staged temporary file has been removed. -/
theorem edit_aborts_on_editor_failure (run : EditorRun)
    (readNb : String → List ECell) (render : List ECell → String)
    (parseMd : String → List ECell) (writeNb : List ECell → String)
    (r : String → String → ℚ) (fs : EditFS) :
    ((edit run readNb render parseMd writeNb r fs).2.temp = none) ∧
    (run.returncode ≠ 0 →
      edit run readNb render parseMd writeNb r fs
        = (.error ("Editor exited with code " ++ toString run.returncode),
           { notebook := fs.notebook, temp := none })) := by
  constructor
  · by_cases h : run.returncode ≠ 0 <;> simp [edit, open_editor, h]
  · intro h
    simp [edit, open_editor, h]

/-- Witness for C9: a concrete editor failure (exit code 1) leaves a
concrete notebook file untouched and the temporary file removed. -/
theorem edit_aborts_on_editor_failure_witness :
    edit ⟨1, "edited"⟩ (fun _ => []) (fun _ => "") (fun _ => [])
        (fun _ => "") ratioCex ⟨"nbjson", none⟩
      = (.error "Editor exited with code 1", ⟨"nbjson", none⟩) :=
  (edit_aborts_on_editor_failure ⟨1, "edited"⟩ (fun _ => []) (fun _ => "")
    (fun _ => []) (fun _ => "") ratioCex ⟨"nbjson", none⟩).2 (by decide)

theorem pyReplaceAux_nil (pat rep : List Char) (fuel : Nat) :
    pyReplaceAux pat rep fuel [] = [] := by
  cases fuel with
  | zero => rfl
  | succ f =>
    rw [pyReplaceAux]
    rw [if_neg]
    intro ⟨h1, h2⟩
    exact h2 (List.prefix_nil.mp (List.isPrefixOf_iff_prefix.mp h1))

theorem pyReplaceAux_fuel (pat rep : List Char) :
    ∀ f1 : Nat, ∀ f2 : Nat, ∀ s : List Char, s.length ≤ f1 → s.length ≤ f2 →
      pyReplaceAux pat rep f1 s = pyReplaceAux pat rep f2 s := by
  intro f1
  induction f1 with
  | zero =>
    intro f2 s h1 _
    have hs : s = [] := List.length_eq_zero.mp (Nat.le_zero.mp h1)
    rw [hs, pyReplaceAux_nil, pyReplaceAux_nil]
  | succ f ih =>
    intro f2 s h1 h2
    cases s with
    | nil => rw [pyReplaceAux_nil, pyReplaceAux_nil]
    | cons c rest =>
      cases f2 with
      | zero => simp at h2
      | succ f2' =>
        rw [pyReplaceAux, pyReplaceAux]
        by_cases hp : pat.isPrefixOf (c :: rest) ∧ pat ≠ []
        · rw [if_pos hp, if_pos hp]
          have hlen : ((c :: rest).drop pat.length).length ≤ f := by
            have h3 : 1 ≤ pat.length :=
              List.length_pos.mpr hp.2
            simp only [List.length_drop, List.length_cons] at *
            omega
          have hlen2 : ((c :: rest).drop pat.length).length ≤ f2' := by
            have h3 : 1 ≤ pat.length := List.length_pos.mpr hp.2
            simp only [List.length_drop, List.length_cons] at *
            omega
          rw [ih f2' _ hlen hlen2]
        · rw [if_neg hp, if_neg hp]
          simp only [List.length_cons] at h1 h2
          rw [ih f2' rest (by omega) (by omega)]

theorem splitFirstAux_none_replace (pat rep : List Char) :
    ∀ fuel : Nat, ∀ s : List Char,
      splitFirstAux pat fuel s = none → pyReplaceAux pat rep fuel s = s := by
  intro fuel
  induction fuel with
  | zero => intro s _; rfl
  | succ f ih =>
    intro s h
    cases s with
    | nil => exact pyReplaceAux_nil pat rep (f + 1)
    | cons c rest =>
      by_cases hp : pat.isPrefixOf (c :: rest) ∧ pat ≠ []
      · rw [splitFirstAux, if_pos hp] at h
        exact Option.noConfusion h
      · rw [splitFirstAux, if_neg hp] at h
        rw [pyReplaceAux, if_neg hp]
        cases hin : splitFirstAux pat f rest with
        | some pr =>
          rw [hin] at h
          simp at h
        | none => rw [ih rest hin]

theorem splitFirstAux_some_replace (pat rep : List Char) :
    ∀ fuel : Nat, ∀ s pre suf : List Char, s.length < fuel →
      splitFirstAux pat fuel s = some (pre, suf) →
      pyReplaceAux pat rep fuel s = pre ++ rep ++ pyReplace suf pat rep := by
  intro fuel
  induction fuel with
  | zero => intro s pre suf h _; omega
  | succ f ih =>
    intro s pre suf hlen h
    cases s with
    | nil =>
      cases pat with
      | nil => rw [splitFirstAux, if_neg (by simp)] at h; exact Option.noConfusion h
      | cons a as =>
        rw [splitFirstAux, if_neg (by simp [List.isPrefixOf])] at h
        exact Option.noConfusion h
    | cons c rest =>
      by_cases hp : pat.isPrefixOf (c :: rest) ∧ pat ≠ []
      · rw [splitFirstAux, if_pos hp] at h
        simp only [Option.some.injEq, Prod.mk.injEq] at h
        obtain ⟨hpre, hsuf⟩ := h
        rw [pyReplaceAux, if_pos hp, ← hpre, ← hsuf]
        simp only [List.nil_append, List.append_cancel_left_eq]
        rw [pyReplace]
        apply pyReplaceAux_fuel
        · have h3 : 1 ≤ pat.length := List.length_pos.mpr hp.2
          simp only [List.length_drop, List.length_cons] at *
          omega
        · simp only [List.length_drop]
          omega
      · rw [splitFirstAux, if_neg hp] at h
        rw [pyReplaceAux, if_neg hp]
        cases hin : splitFirstAux pat f rest with
        | none => rw [hin] at h; exact Option.noConfusion h
        | some pr =>
          rw [hin] at h
          simp only [Option.map_some', Option.some.injEq, Prod.mk.injEq] at h
          obtain ⟨hpre, hsuf⟩ := h
          simp only [List.length_cons] at hlen
          rw [ih rest pr.1 pr.2 (by omega) (by rw [hin])]
          rw [← hpre, ← hsuf]
          simp

theorem pyReplace_of_splitFirst {s pat : List Char} {pre suf : List Char}
    (rep : List Char) (h : splitFirstOcc s pat = some (pre, suf))
    (hno : occursIn suf pat = false) :
    pyReplace s pat rep = pre ++ rep ++ suf := by
  rw [pyReplace, splitFirstAux_some_replace pat rep (s.length + 1) s pre suf
    (by omega) h]
  have hnone : splitFirstOcc suf pat = none := by
    rw [occursIn] at hno
    exact Option.not_isSome_iff_eq_none.mp (by simp [hno])
  rw [pyReplace, splitFirstAux_none_replace pat rep _ suf hnone]

theorem headerType_ne_nil {l : Line} {ty : String} (h : headerType l = some ty) :
    l ≠ [] := by
  intro he
  rw [he] at h
  rw [headerType, if_neg (by decide)] at h
  exact Option.noConfusion h

theorem firstBlockLines_shape {ls : List Line} {sp : List Line}
    (h : firstBlockLines ls = some sp) : ∃ l xs, sp = l :: xs ∧ l ≠ [] := by
  induction ls with
  | nil => exact Option.noConfusion h
  | cons l rest ih =>
    rw [firstBlockLines] at h
    cases hh : headerType l with
    | some ty =>
      cases ht : termIndex rest with
      | some m =>
        rw [hh, ht] at h
        exact ⟨l, rest.take (m + 1), (Option.some.inj h).symm, headerType_ne_nil hh⟩
      | none =>
        rw [hh, ht] at h
        exact ih h
    | none =>
      rw [hh] at h
      exact ih h

theorem intercalateNl_cons_ne_nil {l : Line} (xs : List Line) (h : l ≠ []) :
    intercalateNl (l :: xs) ≠ [] := by
  cases xs with
  | nil => simpa [intercalateNl] using h
  | cons a as => simp [intercalateNl]

theorem extract_first_block_ne_nil {s mc : List Char}
    (h : extract_first_block s = some mc) : mc ≠ [] := by
  rw [extract_first_block] at h
  cases hf : firstBlockLines (linesOf s) with
  | none => rw [hf] at h; exact Option.noConfusion h
  | some sp =>
    rw [hf] at h
    obtain ⟨l, xs, hsp, hl⟩ := firstBlockLines_shape hf
    rw [← Option.some.inj h, hsp]
    exact intercalateNl_cons_ne_nil xs hl

/-- Claim C7, corrected. Frame property of a successful stamp.  Scripts: when
the matched block text occurs exactly once in the script (its first
occurrence splits the script as `pre ++ block ++ suf` and it does not occur
in `suf`), every byte outside the span is preserved in place around the
rewritten block — the proviso is forced because the splice uses
`str.replace`, which replaces every occurrence of the block text, not just
the matched span.  Notebooks: a successful stamp rewrites only the first
metadata-bearing code cell (type and opaque payload preserved); all cells
before it, all cells after it, and the document-level metadata are
unchanged. -/
theorem stamp_preserves_frame :
    (∀ (parseT : List Char → Option TomlDoc) (dumps : TomlDoc → List Char)
       (script : List Char) (dt : Option OffsetDT) (out : List Char)
       (act : Action) (mc pre suf : List Char),
      update_inline_metadata parseT dumps script dt = .ok (out, act) →
      extract_first_block script = some mc →
      splitFirstOcc script mc = some (pre, suf) →
      occursIn suf mc = false →
      ∃ d, out = pre ++ mkMetaComment d ++ suf) ∧
    (∀ (parseT : List Char → Option TomlDoc) (dumps : TomlDoc → List Char)
       (nb : NB) (dt : Option OffsetDT) (nb2 : NB) (act : Action),
      stamp_nb parseT dumps nb dt = .ok (nb2, act) →
      nb2.metadata = nb.metadata ∧
      ∃ pre c c2 post, nb.cells = pre ++ c :: post ∧ nb2.cells = pre ++ c2 :: post ∧
        (∀ x ∈ pre, (x.cell_type == "code" && includes_inline_metadata x.source) = false) ∧
        (c.cell_type == "code" && includes_inline_metadata c.source) = true ∧
        c2.cell_type = c.cell_type ∧ c2.extra = c.extra) := by
  have hgo : ∀ (parseT : List Char → Option TomlDoc) (dumps : TomlDoc → List Char)
      (dt : Option OffsetDT) (cells out : List NCell) (act : Action),
      stamp_nb_go parseT dumps dt cells = .ok (out, act) →
      ∃ pre c c2 post, cells = pre ++ c :: post ∧ out = pre ++ c2 :: post ∧
        (∀ x ∈ pre, (x.cell_type == "code" && includes_inline_metadata x.source) = false) ∧
        (c.cell_type == "code" && includes_inline_metadata c.source) = true ∧
        c2.cell_type = c.cell_type ∧ c2.extra = c.extra := by
    intro parseT dumps dt cells
    induction cells with
    | nil =>
      intro out act h
      rw [stamp_nb_go] at h
      exact Except.noConfusion h
    | cons c cs ih =>
      intro out act h
      rw [stamp_nb_go] at h
      by_cases hc : (c.cell_type == "code" && includes_inline_metadata c.source) = true
      · rw [if_pos hc] at h
        cases hu : update_inline_metadata parseT dumps c.source dt with
        | error e => rw [hu] at h; exact Except.noConfusion h
        | ok pr =>
          rw [hu] at h
          simp only [Except.ok.injEq, Prod.mk.injEq] at h
          obtain ⟨hout, -⟩ := h
          exact ⟨[], c, { c with source := pr.1 }, cs, rfl, by simp [← hout],
            by simp, hc, rfl, rfl⟩
      · rw [if_neg hc] at h
        cases hg : stamp_nb_go parseT dumps dt cs with
        | error e => rw [hg] at h; exact Except.noConfusion h
        | ok pr =>
          rw [hg] at h
          simp only [Except.ok.injEq, Prod.mk.injEq] at h
          obtain ⟨hout, -⟩ := h
          obtain ⟨pre, c1, c2, post, hcs, hout2, hpre, hc1, hty, hex⟩ :=
            ih pr.1 pr.2 (by rw [hg])
          refine ⟨c :: pre, c1, c2, post, by rw [hcs]; simp,
            by rw [← hout, hout2]; simp, ?_, hc1, hty, hex⟩
          intro x hx
          rcases List.mem_cons.mp hx with h1 | h1
          · rw [h1]
            exact Bool.not_eq_true _ ▸ (by simpa using hc)
          · exact hpre x h1
  constructor
  · intro parseT dumps script dt out act mc pre suf h hmc hsplit hno
    simp only [update_inline_metadata, hmc] at h
    split at h
    · exact Except.noConfusion h
    · exact Except.noConfusion h
    · split at h
      · exact Except.noConfusion h
      · split at h
        · exact Except.noConfusion h
        · simp only [Except.ok.injEq, Prod.mk.injEq] at h
          obtain ⟨hout, -⟩ := h
          exact ⟨_, by rw [← hout, pyReplace_of_splitFirst _ hsplit hno]⟩
  · intro parseT dumps nb dt nb2 act h
    rw [stamp_nb] at h
    cases hg : stamp_nb_go parseT dumps dt nb.cells with
    | error e => rw [hg] at h; exact Except.noConfusion h
    | ok pr =>
      rw [hg] at h
      simp only [Except.ok.injEq, Prod.mk.injEq] at h
      obtain ⟨hnb2, -⟩ := h
      constructor
      · rw [← hnb2]
      · obtain ⟨pre, c, c2, post, h1, h2, h3, h4, h5, h6⟩ :=
          hgo parseT dumps dt nb.cells pr.1 pr.2 (by rw [hg])
        exact ⟨pre, c, c2, post, h1, by rw [← hnb2]; exact h2, h3, h4, h5, h6⟩

/-- Counterexample to C7 as stated: the script contains the matched block
once at the top and the same text once more embedded after `x = 1 ` (where
the regex does not match, because the start sentinel is not at a line
start).  The stamp succeeds, but `str.replace` rewrites BOTH occurrences:
the bytes after the matched span are not preserved. -/
theorem stamp_preserves_frame_cex :
    update_inline_metadata
        (fun t => if t = "a = 1\n".data then some [("a", Toml.str "1".data)]
          else none)
        (fun _ =>
          "a = 1\n\n[tool.uv]\nexclude-newer = \"2024-01-02T03:04:05-05:00\"".data)
        "# /// script\n# a = 1\n# ///\nx = 1 # /// script\n# a = 1\n# ///".data
        (some ⟨⟨2024, 1, 2⟩, 3, 4, 5, -300⟩)
      = .ok ("# /// script\n# a = 1\n#\n# [tool.uv]\n# exclude-newer = \"2024-01-02T03:04:05-05:00\"\n# ///\nx = 1 # /// script\n# a = 1\n#\n# [tool.uv]\n# exclude-newer = \"2024-01-02T03:04:05-05:00\"\n# ///".data,
          .create "2024-01-02T03:04:05-05:00".data) ∧
    "# /// script\n# a = 1\n#\n# [tool.uv]\n# exclude-newer = \"2024-01-02T03:04:05-05:00\"\n# ///\nx = 1 # /// script\n# a = 1\n#\n# [tool.uv]\n# exclude-newer = \"2024-01-02T03:04:05-05:00\"\n# ///".data
      ≠ "# /// script\n# a = 1\n#\n# [tool.uv]\n# exclude-newer = \"2024-01-02T03:04:05-05:00\"\n# ///".data
        ++ "\nx = 1 # /// script\n# a = 1\n# ///".data :=
  ⟨rfl, by decide⟩

/-- Witness for C7: a script that is exactly one metadata block is rewritten
in place (empty preserved prefix and suffix), and stamping a notebook whose
second cell carries the block leaves the document metadata untouched. -/
theorem stamp_preserves_frame_witness :
    (∃ d, ("# /// script\n# a = 1\n#\n# [tool.uv]\n# exclude-newer = \"2024-01-02T03:04:05-05:00\"\n# ///".data : List Char)
        = [] ++ mkMetaComment d ++ []) ∧
    (NB.mk "nbmeta"
        [⟨"markdown", "hello".data, "e1"⟩,
         ⟨"code", "# /// script\n# a = 1\n#\n# [tool.uv]\n# exclude-newer = \"2024-01-02T03:04:05-05:00\"\n# ///".data, "e2"⟩]).metadata
      = (NB.mk "nbmeta"
        [⟨"markdown", "hello".data, "e1"⟩,
         ⟨"code", "# /// script\n# a = 1\n# ///".data, "e2"⟩]).metadata := by
  constructor
  · exact stamp_preserves_frame.1
      (fun t => if t = "a = 1\n".data then some [("a", Toml.str "1".data)]
        else none)
      (fun _ =>
        "a = 1\n\n[tool.uv]\nexclude-newer = \"2024-01-02T03:04:05-05:00\"".data)
      "# /// script\n# a = 1\n# ///".data
      (some ⟨⟨2024, 1, 2⟩, 3, 4, 5, -300⟩)
      "# /// script\n# a = 1\n#\n# [tool.uv]\n# exclude-newer = \"2024-01-02T03:04:05-05:00\"\n# ///".data
      (.create "2024-01-02T03:04:05-05:00".data)
      "# /// script\n# a = 1\n# ///".data [] [] (by rfl) (by rfl) (by rfl) (by rfl)
  · exact (stamp_preserves_frame.2
      (fun t => if t = "a = 1\n".data then some [("a", Toml.str "1".data)]
        else none)
      (fun _ =>
        "a = 1\n\n[tool.uv]\nexclude-newer = \"2024-01-02T03:04:05-05:00\"".data)
      (NB.mk "nbmeta"
        [⟨"markdown", "hello".data, "e1"⟩,
         ⟨"code", "# /// script\n# a = 1\n# ///".data, "e2"⟩])
      (some ⟨⟨2024, 1, 2⟩, 3, 4, 5, -300⟩)
      (NB.mk "nbmeta"
        [⟨"markdown", "hello".data, "e1"⟩,
         ⟨"code", "# /// script\n# a = 1\n#\n# [tool.uv]\n# exclude-newer = \"2024-01-02T03:04:05-05:00\"\n# ///".data, "e2"⟩])
      (.create "2024-01-02T03:04:05-05:00".data) (by rfl)).1

end Juv
